import Mathlib

set_option maxRecDepth 4000

/-!
Verification of the AtlasFS chunked transfer pipeline.

Shallow embedding of the upload service (services/upload/main.go,
handleUpload) and the download service (services/download/main.go,
downloadFile).  Bytes are modelled as natural numbers, the MinIO object
store as an association list from keys to byte lists where a fresh put
shadows older entries for the same key (PutObject overwrites), and the
PostgreSQL ledger as lists of file and chunk rows.  Failures of the
external collaborators (object-store put, chunk metadata insert, file
finalize update, chunk fetch) are supplied by boolean oracles, mirroring
the error returns of the Go clients.
-/

namespace AtlasFS

/-- ChunkSize constant from services/upload/main.go: 4 MiB chunks. -/
def ChunkSize : Nat := 4 * 1024 * 1024

/-- The MinIO bucket content relevant to the pipeline: an association list
from object keys to stored byte lists.  A put prepends, so lookup finds the
most recent write for a key, modelling overwrite semantics. -/
abbrev Store : Type := List (String × List Nat)

/-- PutObject: store bytes under a key (newest entry first). -/
def Store.put (s : Store) (k : String) (v : List Nat) : Store :=
  (k, v) :: s

/-- GetObject: retrieve the most recently stored bytes for a key. -/
def Store.get (s : Store) (k : String) : Option (List Nat) :=
  match s with
  | [] => none
  | (k₂, v) :: rest => if k₂ = k then some v else Store.get rest k

/-! ### SHA-256 over byte lists

Models crypto/sha256 Sum256 followed by hex.EncodeToString as used at
services/upload/main.go lines 130-131.  Words are naturals reduced
modulo 2^32. -/

/-- Reduce a natural modulo 2^32 (32-bit word arithmetic). -/
def w32 (x : Nat) : Nat := x % 4294967296

/-- Rotate a 32-bit word right by n bits. -/
def rotr32 (n x : Nat) : Nat := x / 2 ^ n + x % 2 ^ n * 2 ^ (32 - n)

/-- SHA-256 small sigma 0. -/
def ssig0 (x : Nat) : Nat := rotr32 7 x ^^^ rotr32 18 x ^^^ x / 2 ^ 3

/-- SHA-256 small sigma 1. -/
def ssig1 (x : Nat) : Nat := rotr32 17 x ^^^ rotr32 19 x ^^^ x / 2 ^ 10

/-- SHA-256 big sigma 0. -/
def bsig0 (x : Nat) : Nat := rotr32 2 x ^^^ rotr32 13 x ^^^ rotr32 22 x

/-- SHA-256 big sigma 1. -/
def bsig1 (x : Nat) : Nat := rotr32 6 x ^^^ rotr32 11 x ^^^ rotr32 25 x

/-- SHA-256 round constants. -/
def sha256K : List Nat :=
  [1116352408, 1899447441, 3049323471, 3921009573, 961987163,
   1508970993, 2453635748, 2870763221, 3624381080, 310598401,
   607225278, 1426881987, 1925078388, 2162078206, 2614888103,
   3248222580, 3835390401, 4022224774, 264347078, 604807628,
   770255983, 1249150122, 1555081692, 1996064986, 2554220882,
   2821834349, 2952996808, 3210313671, 3336571891, 3584528711,
   113926993, 338241895, 666307205, 773529912, 1294757372,
   1396182291, 1695183700, 1986661051, 2177026350, 2456956037,
   2730485921, 2820302411, 3259730800, 3345764771, 3516065817,
   3600352804, 4094571909, 275423344, 430227734, 506948616,
   659060556, 883997877, 958139571, 1322822218, 1537002063,
   1747873779, 1955562222, 2024104815, 2227730452, 2361852424,
   2428436474, 2756734187, 3204031479, 3329325298]

/-- SHA-256 initial hash value. -/
def sha256H0 : List Nat :=
  [1779033703, 3144134277, 1013904242, 2773480762,
   1359893119, 2600822924, 528734635, 1541459225]

/-- Big-endian byte decomposition: beBytes k x is the k-byte big-endian
encoding of x (low bytes of x). -/
def beBytes : Nat → Nat → List Nat
  | 0, _ => []
  | k + 1, x => x / 2 ^ (8 * k) % 256 :: beBytes k x

/-- SHA-256 padding: append 0x80, zero bytes, and the 64-bit big-endian bit
length so the total length is a multiple of 64. -/
def padMessage (msg : List Nat) : List Nat :=
  let L := msg.length
  let padLen := (64 - (L + 9) % 64) % 64
  msg ++ [128] ++ List.replicate padLen 0 ++ beBytes 8 (L * 8)

/-- Assemble big-endian 32-bit words from bytes. -/
def toWords : List Nat → List Nat
  | b0 :: b1 :: b2 :: b3 :: rest =>
      (((b0 * 256 + b1) * 256 + b2) * 256 + b3) :: toWords rest
  | _ => []

/-- Split a word list into 16-word blocks. -/
def toBlocks : List Nat → List (List Nat)
  | w0 :: w1 :: w2 :: w3 :: w4 :: w5 :: w6 :: w7 ::
    w8 :: w9 :: w10 :: w11 :: w12 :: w13 :: w14 :: w15 :: rest =>
      [w0, w1, w2, w3, w4, w5, w6, w7, w8, w9, w10, w11, w12, w13, w14, w15]
        :: toBlocks rest
  | _ => []

/-- Extend a 16-word block to the 64-word message schedule. -/
def extendWords (ws : List Nat) : List Nat :=
  (List.range 48).foldl
    (fun acc _ =>
      let n := acc.length
      let g := fun i => acc.getD (n - i) 0
      acc ++ [w32 (ssig1 (g 2) + g 7 + ssig0 (g 15) + g 16)])
    ws

/-- One SHA-256 compression function application. -/
def compressBlock (h : List Nat) (block : List Nat) : List Nat :=
  let ws := extendWords block
  let step := fun (st : List Nat) (kw : Nat × Nat) =>
    match st with
    | [a, b, c, d, e, f, g, hh] =>
      let ch := (e &&& f) ^^^ ((e ^^^ 4294967295) &&& g)
      let maj := (a &&& b) ^^^ (a &&& c) ^^^ (b &&& c)
      let t1 := w32 (hh + bsig1 e + ch + kw.1 + kw.2)
      let t2 := w32 (bsig0 a + maj)
      [w32 (t1 + t2), a, b, c, w32 (d + t1), e, f, g]
    | st₂ => st₂
  let fin := (sha256K.zip ws).foldl step h
  match h, fin with
  | [a0, b0, c0, d0, e0, f0, g0, h0], [a, b, c, d, e, f, g, hh] =>
      [w32 (a0 + a), w32 (b0 + b), w32 (c0 + c), w32 (d0 + d),
       w32 (e0 + e), w32 (f0 + f), w32 (g0 + g), w32 (h0 + hh)]
  | _, _ => fin

/-- SHA-256 digest of a byte list, as 32 bytes. -/
def sha256bytes (msg : List Nat) : List Nat :=
  let blocks := toBlocks (toWords (padMessage msg))
  (blocks.foldl compressBlock sha256H0).flatMap (beBytes 4)

/-- Lowercase hexadecimal digit character. -/
def hexChar (n : Nat) : Char :=
  if n < 10 then Char.ofNat (48 + n) else Char.ofNat (87 + n)

/-- Hex-encoded SHA-256 digest of a byte list, modelling
hex.EncodeToString(sha256.Sum256(bytes)). -/
def sha256hex (msg : List Nat) : String :=
  ((sha256bytes msg).flatMap (fun b => [hexChar (b / 16), hexChar (b % 16)])).asString

/-! ### Data model

Mirrors services/common/models/models.go and scripts/init-db.sql
(timestamps omitted: no claim mentions them). -/

/-- A chunk metadata row (models.Chunk / the chunks table). -/
structure Chunk where
  id : String
  fileId : String
  index : Nat
  size : Nat
  checksum : String
  deriving DecidableEq

/-- A file row (models.File / the files table). -/
structure FileRow where
  fileId : String
  fileName : String
  fileSize : Nat
  chunkCount : Nat
  status : String
  deriving DecidableEq

/-- The PostgreSQL state relevant to the pipeline. -/
structure Ledger where
  files : List FileRow
  chunks : List Chunk
  deriving DecidableEq

/-- Object-store key for a chunk, from upload main.go line 134:
fmt.Sprintf with the file id, the literal text chunk, and the index. -/
def chunkKey (fileID : String) (i : Nat) : String :=
  fileID ++ "_chunk_" ++ Nat.repr i

/-- The chunk record built in the upload loop for chunk i holding the given
piece of the input (upload main.go lines 129-156). -/
def mkChunk (fileID : String) (i : Nat) (piece : List Nat) : Chunk :=
  { id := chunkKey fileID i, fileId := fileID, index := i,
    size := piece.length, checksum := sha256hex piece }

/-! ### Upload service (services/upload/main.go, handleUpload) -/

/-- Failure oracles for one upload request: whether the MinIO put of chunk
i succeeds, whether the INSERT of chunk i metadata succeeds, and whether
the final UPDATE of the file row succeeds. -/
structure UploadEnv where
  putOk : Nat → Bool
  recordOk : Nat → Bool
  finalizeOk : Bool

/-- Outcome of the per-chunk loop, with the object store, ledger and
in-memory chunk list at the point the loop finished or aborted. -/
inductive LoopResult where
  | ok (store : Store) (ledger : Ledger) (chunks : List Chunk)
  | failed (store : Store) (ledger : Ledger) (chunks : List Chunk)
  deriving DecidableEq

/-- The per-chunk loop of handleUpload (upload main.go lines 117-196).
Each pass reads up to ChunkSize bytes (the readers used return
min(ChunkSize, remaining) bytes), breaks when the read is empty, hashes
the piece, puts it in the object store (abort with 500 on failure), then
appends the chunk record in memory and inserts the metadata row; an insert
failure is only logged and the loop continues.  The fuel argument bounds
the number of passes structurally; every pass consumes at least one byte,
so callers pass one more than the input length and fuel is never
exhausted. -/
def chunkLoop (env : UploadEnv) (fileID : String) :
    Nat → List Nat → Nat → Store → Ledger → List Chunk → LoopResult
  | 0, _, _, store, ledger, acc => .failed store ledger acc
  | fuel + 1, data, idx, store, ledger, acc =>
    match data with
    | [] => .ok store ledger acc
    | b :: bs =>
      let piece := List.take ChunkSize (b :: bs)
      let rest := List.drop ChunkSize (b :: bs)
      if env.putOk idx = false then .failed store ledger acc
      else
        let ch := mkChunk fileID idx piece
        let acc₂ := acc ++ [ch]
        let ledger₂ :=
          if env.recordOk idx then
            { ledger with chunks := ledger.chunks ++ [ch] }
          else ledger
        chunkLoop env fileID fuel rest (idx + 1)
          (Store.put store (chunkKey fileID idx) piece) ledger₂ acc₂

/-- The final UPDATE of the files row (upload main.go lines 198-209):
sets chunk_count and status completed for the uploaded file id. -/
def finalizeFile (ledger : Ledger) (fileID : String) (count : Nat) : Ledger :=
  { ledger with
    files := ledger.files.map (fun r =>
      if r.fileId = fileID then
        { r with chunkCount := count, status := "completed" }
      else r) }

/-- The parts of the handleUpload outcome the claims talk about: the HTTP
status, the status and chunk_count fields of the JSON response, the chunks
array of the response, and the resulting object store and ledger. -/
structure UploadResult where
  httpStatus : Nat
  respStatus : Option String
  respChunkCount : Option Nat
  respChunks : List Chunk
  store : Store
  ledger : Ledger
  deriving DecidableEq

/-- handleUpload (upload main.go lines 102-242) for a request carrying the
given byte stream, acting on an initial object store and ledger.  The file
id is a parameter (the Go code derives it from the wall clock).  On a put
failure the handler answers 500; otherwise it runs the finalize UPDATE
(whose failure is only logged) and answers 200 with status completed. -/
def handleUpload (env : UploadEnv) (fileID : String) (data : List Nat)
    (store : Store) (ledger : Ledger) : UploadResult :=
  match chunkLoop env fileID (data.length + 1) data 0 store ledger [] with
  | .failed store₂ ledger₂ _ =>
      { httpStatus := 500, respStatus := none, respChunkCount := none,
        respChunks := [], store := store₂, ledger := ledger₂ }
  | .ok store₂ ledger₂ chunks =>
      let ledger₃ :=
        if env.finalizeOk then finalizeFile ledger₂ fileID chunks.length
        else ledger₂
      { httpStatus := 200, respStatus := some ("completed"),
        respChunkCount := some chunks.length, respChunks := chunks,
        store := store₂, ledger := ledger₃ }

/-- getUploadStatus (upload main.go lines 249-269): the file row returned
for a status query, or none for a 404. -/
def getUploadStatus (ledger : Ledger) (fileID : String) : Option FileRow :=
  ledger.files.find? (fun r => r.fileId = fileID)

/-! ### Download service (services/download/main.go, downloadFile) -/

/-- Failure oracle for one download request: whether fetching and copying
the object stored under a key succeeds (GetObject plus io.Copy). -/
structure DlEnv where
  fetchOk : String → Bool

/-- How a download request ended: 404 before any headers, a fully streamed
body, or a body truncated by a mid-stream fetch failure. -/
inductive DlStatus where
  | notFound
  | complete
  | truncated
  deriving DecidableEq

/-- Client-visible outcome of downloadFile: the status, the bytes that were
written to the response body, and the keys for which GetObject was
called, in call order. -/
structure DownloadResult where
  status : DlStatus
  body : List Nat
  fetched : List String
  deriving DecidableEq

/-- The SELECT of the file row (download main.go lines 102-106): first
row whose file id matches and whose status is completed. -/
def lookupCompleted (ledger : Ledger) (fileID : String) : Option FileRow :=
  ledger.files.find? (fun r => r.fileId = fileID && r.status = "completed")

/-- Insertion step for sorting chunk rows by ascending index. -/
def insertByIndex (c : Chunk) : List Chunk → List Chunk
  | [] => [c]
  | d :: ds => if c.index < d.index then c :: d :: ds else d :: insertByIndex c ds

/-- Sort chunk rows by ascending chunk index, modelling both the SQL
ORDER BY chunk_index and the sort.Slice safety re-sort in downloadFile. -/
def sortByIndex (l : List Chunk) : List Chunk :=
  l.foldr insertByIndex []

/-- The chunk rows listed for a file (download main.go lines 118-150):
rows with the file id, in ascending index order. -/
def listChunks (ledger : Ledger) (fileID : String) : List Chunk :=
  sortByIndex (ledger.chunks.filter (fun c => c.fileId = fileID))

/-- The streaming loop of downloadFile (lines 161-185): fetch each listed
chunk in order and append its bytes to the body; on the first fetch or
copy failure stop at once, fetching nothing further and emitting nothing
further. -/
def streamChunks (store : Store) (env : DlEnv) :
    List Chunk → List Nat → List String → DownloadResult
  | [], body, fetched => { status := .complete, body := body, fetched := fetched }
  | c :: cs, body, fetched =>
    match (if env.fetchOk c.id then Store.get store c.id else none) with
    | none => { status := .truncated, body := body, fetched := fetched ++ [c.id] }
    | some bs => streamChunks store env cs (body ++ bs) (fetched ++ [c.id])

/-- downloadFile (download main.go lines 93-210): 404 when no completed
file row matches the id, 404 when no chunk rows exist for it, otherwise
stream the listed chunks in index order. -/
def downloadFile (ledger : Ledger) (store : Store) (env : DlEnv)
    (fileID : String) : DownloadResult :=
  match lookupCompleted ledger fileID with
  | none => { status := .notFound, body := [], fetched := [] }
  | some _ =>
    let chunks := listChunks ledger fileID
    if chunks.isEmpty then { status := .notFound, body := [], fetched := [] }
    else streamChunks store env chunks [] []

/-! ### Loop characterizations

Closed forms for what the upload loop stores, records and returns, used
to state and prove the claims.  They follow the structure of chunkLoop:
recursion consumes ChunkSize bytes per step and stops at the first failing
put. -/

/-- Number of chunks for an input of L bytes: the ceiling of L over
ChunkSize. -/
def numChunks (L : Nat) : Nat := (L + ChunkSize - 1) / ChunkSize

/-- Object-store entries written by the upload loop (newest last), up to
the first failing put. -/
def uploadEntries (env : UploadEnv) (f : String) :
    Nat → List Nat → List (String × List Nat)
  | _, [] => []
  | idx, b :: bs =>
    if env.putOk idx = false then []
    else (chunkKey f idx, List.take ChunkSize (b :: bs)) ::
      uploadEntries env f (idx + 1) (List.drop ChunkSize (b :: bs))
termination_by _ data => data.length
decreasing_by simp [ChunkSize]; omega

/-- In-memory chunk records accumulated by the upload loop, up to the
first failing put. -/
def uploadRows (env : UploadEnv) (f : String) : Nat → List Nat → List Chunk
  | _, [] => []
  | idx, b :: bs =>
    if env.putOk idx = false then []
    else mkChunk f idx (List.take ChunkSize (b :: bs)) ::
      uploadRows env f (idx + 1) (List.drop ChunkSize (b :: bs))
termination_by _ data => data.length
decreasing_by simp [ChunkSize]; omega

/-- Chunk metadata rows actually inserted by the upload loop: those whose
put succeeded, was reached, and whose insert succeeded. -/
def uploadRecs (env : UploadEnv) (f : String) : Nat → List Nat → List Chunk
  | _, [] => []
  | idx, b :: bs =>
    if env.putOk idx = false then []
    else
      (if env.recordOk idx then [mkChunk f idx (List.take ChunkSize (b :: bs))]
       else []) ++
        uploadRecs env f (idx + 1) (List.drop ChunkSize (b :: bs))
termination_by _ data => data.length
decreasing_by simp [ChunkSize]; omega

/-- Whether the upload loop runs to the end (every put succeeds). -/
def uploadOk (env : UploadEnv) : Nat → List Nat → Bool
  | _, [] => true
  | idx, b :: bs =>
    if env.putOk idx = false then false
    else uploadOk env (idx + 1) (List.drop ChunkSize (b :: bs))
termination_by _ data => data.length
decreasing_by simp [ChunkSize]; omega

/-- Decode a decimal digit string (as produced by Nat.repr) back into a
number, used to show chunk keys are injective in the chunk index. -/
def readDigits : List Char → Nat → Nat
  | [], acc => acc
  | c :: cs, acc => readDigits cs (acc * 10 + (c.toNat - 48))

/-- Number of decimal digits of a natural number (at least one). -/
def digitLen (n : Nat) : Nat :=
  if n < 10 then 1 else digitLen (n / 10) + 1
termination_by n
decreasing_by omega

/-! ### Concrete fixtures for witnesses and failing inputs -/

/-- Oracle where every collaborator call succeeds. -/
def allOkEnv : UploadEnv :=
  { putOk := fun _ => true, recordOk := fun _ => true, finalizeOk := true }

/-- Oracle where every metadata insert fails but everything else works. -/
def noRecordEnv : UploadEnv :=
  { putOk := fun _ => true, recordOk := fun _ => false, finalizeOk := true }

/-- Oracle where the finalize update fails but everything else works. -/
def noFinalizeEnv : UploadEnv :=
  { putOk := fun _ => true, recordOk := fun _ => true, finalizeOk := false }

/-- Download oracle where every fetch succeeds. -/
def allFetchEnv : DlEnv := { fetchOk := fun _ => true }

/-- A fixed file id for the concrete scenarios. -/
def testFid : String := "file_1"

/-- The file row as the gateway creates it before an upload. -/
def testRow : FileRow :=
  { fileId := testFid, fileName := "a.txt", fileSize := 3, chunkCount := 0,
    status := "uploading" }

/-- Initial ledger holding just the uploading file row. -/
def testLedger : Ledger := { files := [testRow], chunks := [] }

/-- A completed file row claiming three chunks. -/
def gapRow : FileRow :=
  { fileId := testFid, fileName := "a.txt", fileSize := 6, chunkCount := 3,
    status := "completed" }

/-- Chunk row at index 0 for the gap scenario. -/
def gapChunk0 : Chunk :=
  { id := chunkKey testFid 0, fileId := testFid, index := 0, size := 2,
    checksum := "c0" }

/-- Chunk row at index 2 for the gap scenario; index 1 has no row. -/
def gapChunk2 : Chunk :=
  { id := chunkKey testFid 2, fileId := testFid, index := 2, size := 2,
    checksum := "c2" }

/-- Ledger for a completed file whose chunk indices are 0 and 2: a gap. -/
def gapLedger : Ledger := { files := [gapRow], chunks := [gapChunk0, gapChunk2] }

/-- Object store holding bytes for the two listed gap chunks. -/
def gapStore : Store :=
  [(chunkKey testFid 0, [9, 9]), (chunkKey testFid 2, [7, 7])]

/-- A completed file row with one chunk row whose bytes are absent from
the object store, so its fetch fails. -/
def truncRow : FileRow :=
  { fileId := testFid, fileName := "a.txt", fileSize := 2, chunkCount := 1,
    status := "completed" }

/-- The sole chunk row of the truncation scenario. -/
def truncChunk : Chunk :=
  { id := chunkKey testFid 0, fileId := testFid, index := 0, size := 2,
    checksum := "cc" }

/-- Ledger for the truncation scenario. -/
def truncLedger : Ledger := { files := [truncRow], chunks := [truncChunk] }

/-- File row for the zero-byte upload scenario. -/
def zeroRow : FileRow :=
  { fileId := testFid, fileName := "empty.txt", fileSize := 0, chunkCount := 0,
    status := "uploading" }

/-- Initial ledger for the zero-byte upload scenario. -/
def zeroLedger : Ledger := { files := [zeroRow], chunks := [] }

/-- The single chunk record produced by uploading the one-byte stream. -/
def c6Chunk : Chunk := mkChunk testFid 0 (List.take ChunkSize [1])

/-- The single chunk record produced by uploading the three-byte stream. -/
def c5Chunk : Chunk := mkChunk testFid 0 (List.take ChunkSize [1, 2, 3])

/-- Integrity of a chunk row against an object store: bytes are present
under its key and the stored checksum is their SHA-256 hex digest. -/
def ChunkIntegrity (store : Store) (c : Chunk) : Prop :=
  ∃ bs, Store.get store c.id = some bs ∧ c.checksum = sha256hex bs



theorem digitChar_toNat (d : Nat) (h : d < 10) : (Nat.digitChar d).toNat - 48 = d := by
  interval_cases d <;> rfl

theorem readDigits_toDigitsCore (fuel : Nat) :
    ∀ n ds acc, n < fuel →
      readDigits (Nat.toDigitsCore 10 fuel n ds) acc =
        readDigits ds (acc * 10 ^ digitLen n + n) := by
  induction fuel with
  | zero => intro n ds acc h; omega
  | succ f ih =>
    intro n ds acc h
    simp only [Nat.toDigitsCore]
    by_cases h10 : n / 10 = 0
    · rw [if_pos h10]
      have hn : n < 10 := by omega
      have hdl : digitLen n = 1 := by rw [digitLen]; simp [hn]
      simp only [readDigits]
      rw [digitChar_toNat (n % 10) (by omega), hdl]
      congr 1
      omega
    · rw [if_neg h10]
      rw [ih (n / 10) (Nat.digitChar (n % 10) :: ds) acc (by omega)]
      simp only [readDigits]
      rw [digitChar_toNat (n % 10) (by omega)]
      have hdl : digitLen n = digitLen (n / 10) + 1 := by
        rw [digitLen]; simp [show ¬ n < 10 by omega]
      rw [hdl, pow_succ]
      congr 1
      have h2 : n / 10 * 10 + n % 10 = n := by omega
      calc (acc * 10 ^ digitLen (n / 10) + n / 10) * 10 + n % 10
          = acc * (10 ^ digitLen (n / 10) * 10) + (n / 10 * 10 + n % 10) := by ring
        _ = acc * (10 ^ digitLen (n / 10) * 10) + n := by rw [h2]

theorem readDigits_repr (n : Nat) : readDigits (Nat.repr n).data 0 = n := by
  have h : (Nat.repr n).data = Nat.toDigitsCore 10 (n + 1) n [] := rfl
  rw [h, readDigits_toDigitsCore (n + 1) n [] 0 (by omega)]
  simp [readDigits]

theorem reprInj {m n : Nat} (h : Nat.repr m = Nat.repr n) : m = n := by
  have h2 := congrArg (fun s => readDigits s.data 0) h
  simpa [readDigits_repr] using h2

theorem chunkKey_inj {f : String} {i j : Nat} (h : chunkKey f i = chunkKey f j) :
    i = j := by
  unfold chunkKey at h
  have hd := congrArg String.data h
  simp only [String.data_append] at hd
  have h3 : (Nat.repr i).data = (Nat.repr j).data := by
    simpa [List.append_assoc] using hd
  have h5 := congrArg (fun l => readDigits l 0) h3
  simp only at h5
  rw [readDigits_repr, readDigits_repr] at h5
  exact h5


theorem store_get_append_none {l s : Store} {k : String}
    (h : ∀ e ∈ l, e.1 ≠ k) : Store.get (l ++ s) k = Store.get s k := by
  induction l with
  | nil => rfl
  | cons e rest ih =>
    obtain ⟨k₂, v⟩ := e
    simp only [List.cons_append, Store.get]
    rw [if_neg (h (k₂, v) (List.mem_cons_self _ _))]
    exact ih (fun e he => h e (List.mem_cons_of_mem _ he))

theorem uploadEntries_key {env : UploadEnv} {f : String} :
    ∀ idx data, ∀ e ∈ uploadEntries env f idx data,
      ∃ j, idx ≤ j ∧ e.1 = chunkKey f j := by
  intro idx data
  induction idx, data using uploadEntries.induct env f with
  | case1 idx => intro e he; simp [uploadEntries] at he
  | case2 idx b bs hput => intro e he; simp [uploadEntries, hput] at he
  | case3 idx b bs hput ih =>
    intro e he
    rw [uploadEntries, if_neg hput] at he
    rcases List.mem_cons.mp he with rfl | he
    · exact ⟨idx, le_refl idx, rfl⟩
    · obtain ⟨j, hj, hk⟩ := ih e he
      exact ⟨j, by omega, hk⟩

theorem get_entries_low {env : UploadEnv} {f : String} {idx : Nat}
    {data : List Nat} {s : Store} {k : String}
    (h : ∀ j, idx ≤ j → k ≠ chunkKey f j) :
    Store.get ((uploadEntries env f idx data).reverse ++ s) k = Store.get s k := by
  apply store_get_append_none
  intro e he
  rw [List.mem_reverse] at he
  obtain ⟨j, hj, hkey⟩ := uploadEntries_key idx data e he
  rw [hkey]
  exact fun hh => h j hj hh.symm

theorem chunkLoop_eq (env : UploadEnv) (f : String) :
    ∀ fuel data idx store ledger acc, data.length < fuel →
      chunkLoop env f fuel data idx store ledger acc =
        (if uploadOk env idx data then LoopResult.ok else LoopResult.failed)
          ((uploadEntries env f idx data).reverse ++ store)
          { ledger with chunks := ledger.chunks ++ uploadRecs env f idx data }
          (acc ++ uploadRows env f idx data) := by
  intro fuel
  induction fuel with
  | zero => intro data idx store ledger acc h; omega
  | succ n ih =>
    intro data idx store ledger acc h
    cases data with
    | nil =>
      simp [chunkLoop, uploadOk, uploadEntries, uploadRecs, uploadRows]
    | cons b bs =>
      simp only [chunkLoop]
      by_cases hput : env.putOk idx = false
      · simp only [if_pos hput]
        rw [uploadOk, uploadEntries, uploadRecs, uploadRows]
        simp [hput]
      · simp only [if_neg hput]
        have hlt : (List.drop ChunkSize (b :: bs)).length < n := by
          simp only [List.length_cons] at h
          simp [ChunkSize]
          omega
        rw [ih _ _ _ _ _ hlt]
        rw [uploadOk, uploadEntries, uploadRecs, uploadRows]
        simp only [if_neg hput]
        by_cases hrec : env.recordOk idx
        · simp [hrec, Store.put, List.append_assoc]
        · simp [hrec, Store.put, List.append_assoc]


theorem uploadOk_of_putOk {env : UploadEnv} (hput : ∀ j, env.putOk j = true) :
    ∀ idx data, uploadOk env idx data = true := by
  intro idx data
  induction idx, data using uploadOk.induct env with
  | case1 idx => rw [uploadOk]
  | case2 idx b bs hp => rw [hput idx] at hp; simp at hp
  | case3 idx b bs hp ih => rw [uploadOk, if_neg hp]; exact ih

theorem handleUpload_ok {env : UploadEnv} {f : String} {data : List Nat}
    {store : Store} {ledger : Ledger} (h : uploadOk env 0 data = true) :
    handleUpload env f data store ledger =
      { httpStatus := 200, respStatus := some ("completed"),
        respChunkCount := some (uploadRows env f 0 data).length,
        respChunks := uploadRows env f 0 data,
        store := (uploadEntries env f 0 data).reverse ++ store,
        ledger :=
          if env.finalizeOk then
            finalizeFile
              { ledger with chunks := ledger.chunks ++ uploadRecs env f 0 data }
              f (uploadRows env f 0 data).length
          else
            { ledger with chunks := ledger.chunks ++ uploadRecs env f 0 data } } := by
  unfold handleUpload
  rw [chunkLoop_eq env f (data.length + 1) data 0 store ledger [] (by omega)]
  rw [h]
  simp

theorem handleUpload_failed {env : UploadEnv} {f : String} {data : List Nat}
    {store : Store} {ledger : Ledger} (h : uploadOk env 0 data = false) :
    handleUpload env f data store ledger =
      { httpStatus := 500, respStatus := none, respChunkCount := none,
        respChunks := [],
        store := (uploadEntries env f 0 data).reverse ++ store,
        ledger :=
          { ledger with chunks := ledger.chunks ++ uploadRecs env f 0 data } } := by
  unfold handleUpload
  rw [chunkLoop_eq env f (data.length + 1) data 0 store ledger [] (by omega)]
  rw [h]
  simp

theorem get_entries_head {env : UploadEnv} {f : String} {idx : Nat}
    {b : Nat} {bs : List Nat} {s₀ : Store} (hput : ¬env.putOk idx = false) :
    Store.get ((uploadEntries env f idx (b :: bs)).reverse ++ s₀) (chunkKey f idx) =
      some (List.take ChunkSize (b :: bs)) := by
  rw [uploadEntries, if_neg hput]
  rw [List.reverse_cons, List.append_assoc]
  rw [get_entries_low (fun j hj heq => by have := chunkKey_inj heq; omega)]
  simp [Store.get]

theorem get_row_bytes {env : UploadEnv} {f : String} :
    ∀ idx data, ∀ s₀ : Store, ∀ c ∈ uploadRows env f idx data,
      ∃ bs, Store.get ((uploadEntries env f idx data).reverse ++ s₀) c.id = some bs ∧
        c.checksum = sha256hex bs ∧ c.size = bs.length := by
  intro idx data
  induction idx, data using uploadRows.induct env f with
  | case1 idx => intro s₀ c hc; simp [uploadRows] at hc
  | case2 idx b bs hp => intro s₀ c hc; simp [uploadRows, hp] at hc
  | case3 idx b bs hp ih =>
    intro s₀ c hc
    rw [uploadRows, if_neg hp] at hc
    rcases List.mem_cons.mp hc with rfl | hc
    · exact ⟨List.take ChunkSize (b :: bs), get_entries_head hp, rfl, rfl⟩
    · have h₂ := ih ((chunkKey f idx, List.take ChunkSize (b :: bs)) :: s₀) c hc
      rw [uploadEntries, if_neg hp, List.reverse_cons, List.append_assoc]
      simpa using h₂


theorem uploadRows_fileId {env : UploadEnv} {f : String} :
    ∀ idx data, ∀ c ∈ uploadRows env f idx data, c.fileId = f := by
  intro idx data
  induction idx, data using uploadRows.induct env f with
  | case1 idx => intro c hc; simp [uploadRows] at hc
  | case2 idx b bs hp => intro c hc; simp [uploadRows, hp] at hc
  | case3 idx b bs hp ih =>
    intro c hc
    rw [uploadRows, if_neg hp] at hc
    rcases List.mem_cons.mp hc with rfl | hc
    · rfl
    · exact ih c hc

theorem uploadRecs_subset {env : UploadEnv} {f : String} :
    ∀ idx data, ∀ c ∈ uploadRecs env f idx data, c ∈ uploadRows env f idx data := by
  intro idx data
  induction idx, data using uploadRecs.induct env f with
  | case1 idx => intro c hc; simp [uploadRecs] at hc
  | case2 idx b bs hp => intro c hc; simp [uploadRecs, hp] at hc
  | case3 idx b bs hp ih =>
    intro c hc
    rw [uploadRecs, if_neg hp] at hc
    rw [uploadRows, if_neg hp]
    by_cases hr : env.recordOk idx
    · rw [if_pos hr] at hc
      rcases List.mem_append.mp hc with hc | hc
      · obtain rfl := List.mem_singleton.mp hc
        exact List.mem_cons_self _ _
      · exact List.mem_cons_of_mem _ (ih c hc)
    · rw [if_neg hr] at hc
      rw [List.nil_append] at hc
      exact List.mem_cons_of_mem _ (ih c hc)

theorem uploadRecs_eq_rows {env : UploadEnv} {f : String}
    (hrec : ∀ j, env.recordOk j = true) :
    ∀ idx data, uploadRecs env f idx data = uploadRows env f idx data := by
  intro idx data
  induction idx, data using uploadRecs.induct env f with
  | case1 idx => rw [uploadRecs, uploadRows]
  | case2 idx b bs hp => rw [uploadRecs, uploadRows, if_pos hp, if_pos hp]
  | case3 idx b bs hp ih =>
    rw [uploadRecs, uploadRows, if_neg hp, if_neg hp, hrec idx]
    simp [ih]

theorem uploadRows_index_ge {env : UploadEnv} {f : String} :
    ∀ idx data, ∀ c ∈ uploadRows env f idx data, idx ≤ c.index := by
  intro idx data
  induction idx, data using uploadRows.induct env f with
  | case1 idx => intro c hc; simp [uploadRows] at hc
  | case2 idx b bs hp => intro c hc; simp [uploadRows, hp] at hc
  | case3 idx b bs hp ih =>
    intro c hc
    rw [uploadRows, if_neg hp] at hc
    rcases List.mem_cons.mp hc with rfl | hc
    · exact le_refl idx
    · have := ih c hc; omega

theorem uploadRows_pairwise {env : UploadEnv} {f : String} :
    ∀ idx data,
      List.Pairwise (fun a b => a.index < b.index) (uploadRows env f idx data) := by
  intro idx data
  induction idx, data using uploadRows.induct env f with
  | case1 idx => rw [uploadRows]; exact List.Pairwise.nil
  | case2 idx b bs hp => rw [uploadRows, if_pos hp]; exact List.Pairwise.nil
  | case3 idx b bs hp ih =>
    rw [uploadRows, if_neg hp]
    refine List.Pairwise.cons ?_ ih
    intro c hc
    have h₂ := uploadRows_index_ge (idx + 1) _ c hc
    show (mkChunk f idx (List.take ChunkSize (b :: bs))).index < c.index
    simp only [mkChunk]
    omega

theorem uploadRows_length {env : UploadEnv} {f : String}
    (hput : ∀ j, env.putOk j = true) :
    ∀ idx data, (uploadRows env f idx data).length = numChunks data.length := by
  intro idx data
  induction idx, data using uploadRows.induct env f with
  | case1 idx =>
    rw [uploadRows]
    simp [numChunks, ChunkSize]
  | case2 idx b bs hp => rw [hput idx] at hp; simp at hp
  | case3 idx b bs hp ih =>
    rw [uploadRows, if_neg hp]
    rw [List.length_cons, ih]
    simp only [numChunks, ChunkSize, List.length_drop, List.length_cons]
    omega

theorem uploadRows_size {env : UploadEnv} {f : String}
    (hput : ∀ j, env.putOk j = true) :
    ∀ idx data, ∀ c ∈ uploadRows env f idx data,
      ∃ k, c.index = idx + k ∧
        c.size = min ChunkSize (data.length - k * ChunkSize) ∧
        k < numChunks data.length := by
  intro idx data
  induction idx, data using uploadRows.induct env f with
  | case1 idx => intro c hc; simp [uploadRows] at hc
  | case2 idx b bs hp => rw [hput idx] at hp; simp at hp
  | case3 idx b bs hp ih =>
    intro c hc
    rw [uploadRows, if_neg hp] at hc
    rcases List.mem_cons.mp hc with rfl | hc
    · refine ⟨0, by simp [mkChunk], ?_, ?_⟩
      · show (mkChunk f idx (List.take ChunkSize (b :: bs))).size = _
        simp only [mkChunk, List.length_take, List.length_cons]
        omega
      · simp only [numChunks, ChunkSize, List.length_cons]
        omega
    · obtain ⟨k, hk1, hk2, hk3⟩ := ih c hc
      have hdl : (List.drop ChunkSize (b :: bs)).length = (b :: bs).length - ChunkSize := by
        simp
      refine ⟨k + 1, by omega, ?_, ?_⟩
      · rw [hk2, hdl]
        simp only [List.length_cons, ChunkSize]
        omega
      · rw [hdl] at hk3
        simp only [numChunks, ChunkSize, List.length_cons] at hk3 ⊢
        omega


theorem stream_rows {env : UploadEnv} {dl : DlEnv} {f : String}
    (hput : ∀ j, env.putOk j = true) (hfetch : ∀ k, dl.fetchOk k = true) :
    ∀ idx data, ∀ s₀ : Store, ∀ body fetched,
      streamChunks ((uploadEntries env f idx data).reverse ++ s₀) dl
          (uploadRows env f idx data) body fetched =
        { status := .complete, body := body ++ data,
          fetched := fetched ++ (uploadRows env f idx data).map (fun c => c.id) } := by
  intro idx data
  induction idx, data using uploadRows.induct env f with
  | case1 idx =>
    intro s₀ body fetched
    rw [uploadRows]
    simp [streamChunks]
  | case2 idx b bs hp => rw [hput idx] at hp; simp at hp
  | case3 idx b bs hp ih =>
    intro s₀ body fetched
    rw [uploadRows, if_neg hp]
    rw [streamChunks]
    have hid : (mkChunk f idx (List.take ChunkSize (b :: bs))).id = chunkKey f idx := rfl
    rw [hid, hfetch (chunkKey f idx), if_pos rfl, get_entries_head hp]
    rw [uploadEntries, if_neg hp, List.reverse_cons, List.append_assoc, List.cons_append,
      List.nil_append]
    simp [ih, mkChunk, List.append_assoc]

theorem range_join {env : UploadEnv} {f : String}
    (hput : ∀ j, env.putOk j = true) :
    ∀ idx data, ∀ s₀ : Store,
      ((List.range (numChunks data.length)).map
          (fun i => (Store.get ((uploadEntries env f idx data).reverse ++ s₀)
            (chunkKey f (idx + i))).getD [])).flatten = data := by
  intro idx data
  induction idx, data using uploadEntries.induct env f with
  | case1 idx =>
    intro s₀
    have h0 : numChunks ([] : List Nat).length = 0 := by simp [numChunks, ChunkSize]
    rw [h0]
    simp
  | case2 idx b bs hp => rw [hput idx] at hp; simp at hp
  | case3 idx b bs hp ih =>
    intro s₀
    have hstep : numChunks (b :: bs).length =
        numChunks (List.drop ChunkSize (b :: bs)).length + 1 := by
      simp only [numChunks, ChunkSize, List.length_drop, List.length_cons]
      omega
    rw [hstep, List.range_succ_eq_map, List.map_cons, List.flatten_cons]
    rw [show idx + 0 = idx from rfl, get_entries_head hp]
    rw [List.map_map]
    have hmc : ∀ i ∈ List.range (numChunks (List.drop ChunkSize (b :: bs)).length),
        ((fun i => (Store.get ((uploadEntries env f idx (b :: bs)).reverse ++ s₀)
            (chunkKey f (idx + i))).getD []) ∘ Nat.succ) i =
          (fun i => (Store.get
              ((uploadEntries env f (idx + 1) (List.drop ChunkSize (b :: bs))).reverse ++
                ((chunkKey f idx, List.take ChunkSize (b :: bs)) :: s₀))
            (chunkKey f ((idx + 1) + i))).getD []) i := by
      intro i hi
      simp only [Function.comp_apply]
      rw [uploadEntries, if_neg hp, List.reverse_cons, List.append_assoc, List.cons_append,
        List.nil_append]
      have harg : idx + Nat.succ i = (idx + 1) + i := by omega
      rw [harg]
    rw [List.map_congr_left hmc]
    rw [ih ((chunkKey f idx, List.take ChunkSize (b :: bs)) :: s₀)]
    simp


theorem finalizeFile_chunks (ledger : Ledger) (f : String) (n : Nat) :
    (finalizeFile ledger f n).chunks = ledger.chunks := rfl

theorem finalizeFile_row_count {ledger : Ledger} {f : String} {n : Nat} :
    ∀ r ∈ (finalizeFile ledger f n).files, r.fileId = f →
      r.chunkCount = n ∧ r.status = "completed" := by
  intro r hr hid
  unfold finalizeFile at hr
  simp only [List.mem_map] at hr
  obtain ⟨a, ha, rfl⟩ := hr
  by_cases h : a.fileId = f
  · rw [if_pos h] at hid ⊢
    exact ⟨rfl, rfl⟩
  · rw [if_neg h] at hid
    exact absurd hid h

theorem lookupCompleted_finalize {files : List FileRow} {chs : List Chunk}
    {f : String} {n : Nat} :
    (∃ r ∈ files, r.fileId = f) →
    ∃ row, lookupCompleted (finalizeFile { files := files, chunks := chs } f n) f =
      some row := by
  induction files with
  | nil => intro hex; simp at hex
  | cons r rest ih =>
    intro hex
    unfold lookupCompleted finalizeFile
    simp only [List.map_cons]
    by_cases hr : r.fileId = f
    · rw [if_pos hr]
      refine ⟨_, List.find?_cons_of_pos _ ?_⟩
      simp [hr]
    · rw [if_neg hr]
      rw [List.find?_cons_of_neg _ (by simp [hr])]
      obtain ⟨r₂, hr₂, hid₂⟩ := hex
      rcases List.mem_cons.mp hr₂ with rfl | hmem
      · exact absurd hid₂ hr
      · obtain ⟨row, hrow⟩ := ih ⟨r₂, hmem, hid₂⟩
        exact ⟨row, by simpa [lookupCompleted, finalizeFile] using hrow⟩

theorem sortByIndex_eq_self : ∀ l : List Chunk,
    List.Pairwise (fun a b => a.index < b.index) l → sortByIndex l = l := by
  intro l h
  induction l with
  | nil => rfl
  | cons c cs ih =>
    have ht := ih h.of_cons
    show insertByIndex c (sortByIndex cs) = c :: cs
    rw [ht]
    cases cs with
    | nil => rfl
    | cons d ds =>
      have hcd : c.index < d.index :=
        (List.pairwise_cons.mp h).1 d (List.mem_cons_self _ _)
      rw [insertByIndex, if_pos hcd]

theorem listChunks_split {fls : List FileRow} {chunks₀ rows : List Chunk} {f : String}
    (h₀ : ∀ c ∈ chunks₀, c.fileId ≠ f) (h₁ : ∀ c ∈ rows, c.fileId = f)
    (h₂ : List.Pairwise (fun a b => a.index < b.index) rows) :
    listChunks { files := fls, chunks := chunks₀ ++ rows } f = rows := by
  unfold listChunks
  rw [List.filter_append]
  have e₀ : chunks₀.filter (fun c => decide (c.fileId = f)) = [] :=
    List.filter_eq_nil_iff.mpr (by intro a ha; simpa using h₀ a ha)
  have e₁ : rows.filter (fun c => decide (c.fileId = f)) = rows :=
    List.filter_eq_self.mpr (by intro a ha; simpa using h₁ a ha)
  rw [e₀, e₁, List.nil_append]
  exact sortByIndex_eq_self rows h₂


theorem listChunks_finalize (ledger : Ledger) (f fid : String) (n : Nat) :
    listChunks (finalizeFile ledger f n) fid = listChunks ledger fid := rfl

theorem uploadRows_cons {env : UploadEnv} {f : String} {idx b : Nat} {bs : List Nat}
    (hp : ¬env.putOk idx = false) :
    uploadRows env f idx (b :: bs) =
      mkChunk f idx (List.take ChunkSize (b :: bs)) ::
        uploadRows env f (idx + 1) (List.drop ChunkSize (b :: bs)) := by
  rw [uploadRows, if_neg hp]

theorem lookupCompleted_none {ledger : Ledger} {fid : String}
    (h : ∀ r ∈ ledger.files, r.fileId = fid → r.status ≠ "completed") :
    lookupCompleted ledger fid = none := by
  unfold lookupCompleted
  rw [List.find?_eq_none]
  intro r hr
  simp only [Bool.and_eq_true, decide_eq_true_eq, not_and]
  exact h r hr

theorem streamChunks_truncated {store : Store} {env : DlEnv} :
    ∀ rows (body₀ : List Nat) (fetched₀ : List String),
      (streamChunks store env rows body₀ fetched₀).status = .truncated →
      ∃ pre c post bss,
        rows = pre ++ c :: post ∧
        List.Forall₂ (fun d bs =>
          (if env.fetchOk d.id then Store.get store d.id else none) = some bs) pre bss ∧
        (if env.fetchOk c.id then Store.get store c.id else none) = none ∧
        (streamChunks store env rows body₀ fetched₀).fetched =
          fetched₀ ++ pre.map (fun d => d.id) ++ [c.id] ∧
        (streamChunks store env rows body₀ fetched₀).body = body₀ ++ bss.flatten := by
  intro rows
  induction rows with
  | nil => intro body₀ fetched₀ h; simp [streamChunks] at h
  | cons c cs ih =>
    intro body₀ fetched₀ h
    cases hf : (if env.fetchOk c.id then Store.get store c.id else none) with
    | none =>
      have heq : streamChunks store env (c :: cs) body₀ fetched₀ =
          { status := .truncated, body := body₀, fetched := fetched₀ ++ [c.id] } := by
        rw [streamChunks, hf]
      refine ⟨[], c, cs, [], by simp, List.Forall₂.nil, hf, ?_, ?_⟩
      · rw [heq]; simp
      · rw [heq]; simp
    | some bs =>
      have heq : streamChunks store env (c :: cs) body₀ fetched₀ =
          streamChunks store env cs (body₀ ++ bs) (fetched₀ ++ [c.id]) := by
        rw [streamChunks, hf]
      rw [heq] at h
      obtain ⟨pre, c₂, post, bss, h1, h2, h3, h4, h5⟩ := ih (body₀ ++ bs) (fetched₀ ++ [c.id]) h
      refine ⟨c :: pre, c₂, post, bs :: bss, by rw [h1]; rfl, List.Forall₂.cons hf h2, h3, ?_, ?_⟩
      · rw [heq, h4]; simp [List.append_assoc]
      · rw [heq, h5]; simp [List.append_assoc]


theorem handleUpload_store (env : UploadEnv) (f : String) (data : List Nat)
    (store₀ : Store) (ledger₀ : Ledger) :
    (handleUpload env f data store₀ ledger₀).store =
      (uploadEntries env f 0 data).reverse ++ store₀ := by
  cases hok : uploadOk env 0 data with
  | false => rw [handleUpload_failed hok]
  | true => rw [handleUpload_ok hok]

theorem handleUpload_ledger_chunks (env : UploadEnv) (f : String) (data : List Nat)
    (store₀ : Store) (ledger₀ : Ledger) :
    (handleUpload env f data store₀ ledger₀).ledger.chunks =
      ledger₀.chunks ++ uploadRecs env f 0 data := by
  cases hok : uploadOk env 0 data with
  | false => rw [handleUpload_failed hok]
  | true =>
    rw [handleUpload_ok hok]
    by_cases hf : env.finalizeOk
    · simp only [hf, if_true, finalizeFile_chunks]
    · simp [hf]

/-- C3: for a download request whose file id has no ledger row with status
completed (unknown id, or a row in any other status), downloadFile answers
404 NotFound, emits no bytes, and calls GetObject zero times. -/
theorem download_notFound_no_fetch (ledger : Ledger) (store : Store) (env : DlEnv)
    (fid : String)
    (h : ∀ r ∈ ledger.files, r.fileId = fid → r.status ≠ "completed") :
    downloadFile ledger store env fid =
      { status := .notFound, body := [], fetched := [] } := by
  unfold downloadFile
  rw [lookupCompleted_none h]

/-- C3 witness: the concrete ledger whose only row is still uploading
yields 404 with zero fetches. -/
theorem download_notFound_no_fetch_witness :
    downloadFile testLedger gapStore allFetchEnv testFid =
      { status := .notFound, body := [], fetched := [] } :=
  download_notFound_no_fetch testLedger gapStore allFetchEnv testFid (by decide)

/-- C7: whenever downloadFile ends truncated, the listed chunks split as
pre, failing chunk c, post: every chunk of pre was fetched successfully,
the fetch of c failed, the fetched keys are exactly pre plus c (nothing
after the failure, in particular no later-index chunk), and the body is
exactly the successfully fetched bytes (nothing emitted after the
failure). -/
theorem download_aborts_on_first_failure (ledger : Ledger) (store : Store)
    (env : DlEnv) (fid : String)
    (h : (downloadFile ledger store env fid).status = .truncated) :
    ∃ pre c post bss,
      listChunks ledger fid = pre ++ c :: post ∧
      List.Forall₂ (fun d bs =>
        (if env.fetchOk d.id then Store.get store d.id else none) = some bs) pre bss ∧
      (if env.fetchOk c.id then Store.get store c.id else none) = none ∧
      (downloadFile ledger store env fid).fetched =
        pre.map (fun d => d.id) ++ [c.id] ∧
      (downloadFile ledger store env fid).body = bss.flatten := by
  cases hlk : lookupCompleted ledger fid with
  | none =>
    rw [downloadFile, hlk] at h
    simp at h
  | some row =>
    rw [downloadFile, hlk] at h
    by_cases hemp : (listChunks ledger fid).isEmpty
    · rw [if_pos hemp] at h
      simp at h
    · rw [if_neg hemp] at h
      obtain ⟨pre, c, post, bss, h1, h2, h3, h4, h5⟩ :=
        streamChunks_truncated (listChunks ledger fid) [] [] h
      refine ⟨pre, c, post, bss, h1, h2, h3, ?_, ?_⟩
      · rw [downloadFile, hlk, if_neg hemp]
        simpa using h4
      · rw [downloadFile, hlk, if_neg hemp]
        simpa using h5

/-- C7 witness: a completed file with one chunk row whose bytes are
missing from the object store truncates immediately with an empty
prefix. -/
theorem download_aborts_on_first_failure_witness :
    ∃ pre c post bss,
      listChunks truncLedger testFid = pre ++ c :: post ∧
      List.Forall₂ (fun d bs =>
        (if allFetchEnv.fetchOk d.id then Store.get ([] : Store) d.id else none) =
          some bs) pre bss ∧
      (if allFetchEnv.fetchOk c.id then Store.get ([] : Store) c.id else none) =
        none ∧
      (downloadFile truncLedger [] allFetchEnv testFid).fetched =
        pre.map (fun d => d.id) ++ [c.id] ∧
      (downloadFile truncLedger [] allFetchEnv testFid).body = bss.flatten :=
  download_aborts_on_first_failure truncLedger [] allFetchEnv testFid (by decide)

/-- C10: whenever every object-store put succeeds, handleUpload answers
HTTP 200 with response status the constant completed, regardless of the
finalize oracle; and when finalize fails the file rows of the ledger are
left untouched, so the recorded status can disagree with the response. -/
theorem upload_response_completed_ignores_finalize (env : UploadEnv) (f : String)
    (data : List Nat) (store : Store) (ledger : Ledger)
    (hput : ∀ j, env.putOk j = true) :
    (handleUpload env f data store ledger).httpStatus = 200 ∧
    (handleUpload env f data store ledger).respStatus = some ("completed") ∧
    (env.finalizeOk = false →
      (handleUpload env f data store ledger).ledger.files = ledger.files) := by
  rw [handleUpload_ok (uploadOk_of_putOk hput 0 data)]
  refine ⟨rfl, rfl, fun hf => ?_⟩
  simp [hf]

/-- C10 witness: a one-byte upload with a failing finalize still answers
200 completed and leaves the file row uploading. -/
theorem upload_response_completed_ignores_finalize_witness :
    (handleUpload noFinalizeEnv testFid [1] [] testLedger).httpStatus = 200 ∧
    (handleUpload noFinalizeEnv testFid [1] [] testLedger).respStatus =
      some ("completed") ∧
    (noFinalizeEnv.finalizeOk = false →
      (handleUpload noFinalizeEnv testFid [1] [] testLedger).ledger.files =
        testLedger.files) :=
  upload_response_completed_ignores_finalize noFinalizeEnv testFid [1] [] testLedger
    (fun _ => rfl)


/-- C2: the code violates this claim.  With every object-store put
succeeding but every chunk metadata insert failing, handleUpload still
runs the finalize update with status completed and answers 200 completed:
the ledger ends with a completed file row claiming one chunk while zero
chunk rows exist.  The insert failure is only logged (upload main.go lines
167-169) and neither retried nor turned into a failed finalize. -/
theorem record_failure_still_finalizes_completed :
    (handleUpload noRecordEnv testFid [1] [] testLedger).httpStatus = 200 ∧
    (handleUpload noRecordEnv testFid [1] [] testLedger).respStatus =
      some ("completed") ∧
    (handleUpload noRecordEnv testFid [1] [] testLedger).ledger.chunks = [] ∧
    (handleUpload noRecordEnv testFid [1] [] testLedger).ledger.files =
      [{ fileId := testFid, fileName := "a.txt", fileSize := 3, chunkCount := 1,
         status := "completed" }] :=
  ⟨rfl, rfl, rfl, rfl⟩

/-- C8: the code violates this claim.  For a completed file whose chunk
rows have indices 0 and 2 (chunk_count 3, index 1 missing), downloadFile
performs no gap check: it streams both listed chunks and reports a
complete download, rather than a fatal integrity error before any bytes
are sent. -/
theorem gap_download_streams_without_error :
    gapLedger.chunks.map (fun c => c.index) = [0, 2] ∧
    (∀ r ∈ gapLedger.files, r.chunkCount = 3 ∧ r.status = "completed") ∧
    downloadFile gapLedger gapStore allFetchEnv testFid =
      { status := .complete, body := [9, 9, 7, 7],
        fetched := [chunkKey testFid 0, chunkKey testFid 2] } :=
  ⟨rfl, by decide, rfl⟩

/-- C9: the code violates this claim.  A zero-byte upload is accepted:
the response is 200 with status completed and chunk_count 0, the status
endpoint then reports the file completed, yet downloading the same file
answers 404 NotFound (downloadFile treats an empty chunk list as missing,
download main.go lines 142-145), so the two endpoints contradict each
other. -/
theorem zero_byte_upload_download_contradict :
    (handleUpload allOkEnv testFid [] [] zeroLedger).httpStatus = 200 ∧
    (handleUpload allOkEnv testFid [] [] zeroLedger).respStatus =
      some ("completed") ∧
    (handleUpload allOkEnv testFid [] [] zeroLedger).respChunkCount = some 0 ∧
    ((getUploadStatus (handleUpload allOkEnv testFid [] [] zeroLedger).ledger
        testFid).map (fun r => r.status)) = some ("completed") ∧
    (downloadFile (handleUpload allOkEnv testFid [] [] zeroLedger).ledger
        (handleUpload allOkEnv testFid [] [] zeroLedger).store allFetchEnv
        testFid).status = .notFound :=
  ⟨rfl, rfl, rfl, by decide, by decide⟩


/-- C4: with every put succeeding, the response chunk_count, which
finalize also writes to the file row when it succeeds, equals
ceil(len(F)/ChunkSize); every produced chunk except possibly the last has
size exactly ChunkSize and the last has size len mod ChunkSize, or
ChunkSize when len is a positive multiple of ChunkSize. -/
theorem upload_chunk_count_is_ceil (env : UploadEnv) (f : String) (data : List Nat)
    (store : Store) (ledger : Ledger) (hput : ∀ j, env.putOk j = true) :
    (handleUpload env f data store ledger).respChunkCount =
      some ((data.length + ChunkSize - 1) / ChunkSize) ∧
    (∀ r ∈ (handleUpload env f data store ledger).ledger.files,
      r.fileId = f → env.finalizeOk = true →
        r.chunkCount = (data.length + ChunkSize - 1) / ChunkSize) ∧
    ∀ c ∈ (handleUpload env f data store ledger).respChunks,
      (c.index + 1 < (data.length + ChunkSize - 1) / ChunkSize →
        c.size = ChunkSize) ∧
      (c.index + 1 = (data.length + ChunkSize - 1) / ChunkSize →
        c.size = if data.length % ChunkSize = 0 then ChunkSize
          else data.length % ChunkSize) := by
  have hok := uploadOk_of_putOk hput 0 data
  have hlen := uploadRows_length (f := f) hput 0 data
  rw [handleUpload_ok hok]
  refine ⟨?_, ?_, ?_⟩
  · show some (uploadRows env f 0 data).length = _
    rw [hlen]
    rfl
  · intro r hr hid hfin
    simp only [hfin, if_true] at hr
    have h₂ := finalizeFile_row_count r hr hid
    rw [h₂.1, hlen]
    rfl
  · intro c hc
    obtain ⟨k, hk1, hk2, hk3⟩ := uploadRows_size hput 0 data c hc
    rw [Nat.zero_add] at hk1
    constructor
    · intro hlt
      rw [hk1] at hlt
      rw [hk2]
      simp only [numChunks, ChunkSize] at hk3 hlt ⊢
      omega
    · intro heq
      rw [hk1] at heq
      rw [hk2]
      simp only [numChunks, ChunkSize] at hk3 heq ⊢
      split_ifs with hmod
      · omega
      · omega

/-- C4 witness: a two-byte upload produces one chunk of size two. -/
theorem upload_chunk_count_is_ceil_witness :
    (handleUpload allOkEnv testFid [5, 6] [] testLedger).respChunkCount =
      some ((([5, 6] : List Nat).length + ChunkSize - 1) / ChunkSize) ∧
    (∀ r ∈ (handleUpload allOkEnv testFid [5, 6] [] testLedger).ledger.files,
      r.fileId = testFid → allOkEnv.finalizeOk = true →
        r.chunkCount = (([5, 6] : List Nat).length + ChunkSize - 1) / ChunkSize) ∧
    ∀ c ∈ (handleUpload allOkEnv testFid [5, 6] [] testLedger).respChunks,
      (c.index + 1 < (([5, 6] : List Nat).length + ChunkSize - 1) / ChunkSize →
        c.size = ChunkSize) ∧
      (c.index + 1 = (([5, 6] : List Nat).length + ChunkSize - 1) / ChunkSize →
        c.size = if ([5, 6] : List Nat).length % ChunkSize = 0 then ChunkSize
          else ([5, 6] : List Nat).length % ChunkSize) :=
  upload_chunk_count_is_ceil allOkEnv testFid [5, 6] [] testLedger (fun _ => rfl)

/-- C5: after any upload over a store and ledger whose existing chunk rows
already satisfy the integrity law and do not collide with the upload's
keys, every chunk row in the resulting ledger has its checksum equal to
the SHA-256 hex digest of exactly the bytes stored under its key in the
resulting object store. -/
theorem chunk_checksum_integrity (env : UploadEnv) (f : String) (data : List Nat)
    (store₀ : Store) (ledger₀ : Ledger)
    (hold : ∀ c ∈ ledger₀.chunks, ChunkIntegrity store₀ c)
    (hfresh : ∀ c ∈ ledger₀.chunks, ∀ j, c.id ≠ chunkKey f j) :
    ∀ c ∈ (handleUpload env f data store₀ ledger₀).ledger.chunks,
      ChunkIntegrity (handleUpload env f data store₀ ledger₀).store c := by
  intro c hc
  rw [handleUpload_ledger_chunks] at hc
  rw [handleUpload_store]
  rcases List.mem_append.mp hc with hc | hc
  · obtain ⟨bs, hget, hsum⟩ := hold c hc
    refine ⟨bs, ?_, hsum⟩
    rw [get_entries_low (fun j _ heq => hfresh c hc j heq)]
    exact hget
  · obtain ⟨bs, hget, hsum, hsize⟩ :=
      get_row_bytes 0 data store₀ c (uploadRecs_subset 0 data c hc)
    exact ⟨bs, hget, hsum⟩

/-- C5 witness: the chunk row created by a three-byte upload into an empty
store and a ledger with no chunk rows satisfies the integrity law. -/
theorem chunk_checksum_integrity_witness :
    ChunkIntegrity (handleUpload allOkEnv testFid [1, 2, 3] [] testLedger).store
      c5Chunk :=
  chunk_checksum_integrity allOkEnv testFid [1, 2, 3] [] testLedger
    (fun c hc => absurd hc (List.not_mem_nil c))
    (fun c hc => absurd hc (List.not_mem_nil c))
    c5Chunk (List.Mem.head _)

/-- C6: every chunk metadata row present after an upload is either a
pre-existing row or a row whose bytes the object store accepted: its key
maps to stored bytes of exactly the recorded size and checksum.  The
model inserts a row only in the branch where the put succeeded, so a new
row implies its bytes were stored first. -/
theorem chunk_row_only_if_stored (env : UploadEnv) (f : String) (data : List Nat)
    (store₀ : Store) (ledger₀ : Ledger) :
    ∀ c ∈ (handleUpload env f data store₀ ledger₀).ledger.chunks,
      c ∈ ledger₀.chunks ∨
      ∃ bs, Store.get (handleUpload env f data store₀ ledger₀).store c.id =
          some bs ∧ bs.length = c.size ∧ c.checksum = sha256hex bs := by
  intro c hc
  rw [handleUpload_ledger_chunks] at hc
  rcases List.mem_append.mp hc with hc | hc
  · exact Or.inl hc
  · right
    rw [handleUpload_store]
    obtain ⟨bs, hget, hsum, hsize⟩ :=
      get_row_bytes 0 data store₀ c (uploadRecs_subset 0 data c hc)
    exact ⟨bs, hget, hsize.symm, hsum⟩

/-- C6 witness: the chunk row created by a one-byte upload, with its
stored bytes. -/
theorem chunk_row_only_if_stored_witness :
    c6Chunk ∈ (handleUpload allOkEnv testFid [1] [] testLedger).ledger.chunks ∧
    (c6Chunk ∈ testLedger.chunks ∨
      ∃ bs, Store.get (handleUpload allOkEnv testFid [1] [] testLedger).store
          c6Chunk.id = some bs ∧
        bs.length = c6Chunk.size ∧ c6Chunk.checksum = sha256hex bs) := by
  have hmem : c6Chunk ∈ (handleUpload allOkEnv testFid [1] [] testLedger).ledger.chunks :=
    List.Mem.head _
  exact ⟨hmem,
    chunk_row_only_if_stored allOkEnv testFid [1] [] testLedger c6Chunk hmem⟩


/-- C1: round-trip law.  After a fully successful upload over an initial
state whose file row exists for the id and whose chunk rows do not use
the id, concatenating the stored bytes under chunk keys 0..chunk_count-1
in ascending index order reproduces the input byte stream exactly, and
downloadFile on the resulting state streams exactly those bytes with a
complete status. -/
theorem upload_download_roundtrip (env : UploadEnv) (dl : DlEnv) (f : String)
    (data : List Nat) (store₀ : Store) (files₀ : List FileRow)
    (chunks₀ : List Chunk)
    (hput : ∀ j, env.putOk j = true) (hrec : ∀ j, env.recordOk j = true)
    (hfin : env.finalizeOk = true) (hfetch : ∀ k, dl.fetchOk k = true)
    (hrow : ∃ r ∈ files₀, r.fileId = f)
    (hold : ∀ c ∈ chunks₀, c.fileId ≠ f) (hne : data ≠ []) :
    ((List.range ((data.length + ChunkSize - 1) / ChunkSize)).map (fun i =>
        (Store.get (handleUpload env f data store₀ ⟨files₀, chunks₀⟩).store
          (chunkKey f i)).getD [])).flatten = data ∧
    downloadFile (handleUpload env f data store₀ ⟨files₀, chunks₀⟩).ledger
        (handleUpload env f data store₀ ⟨files₀, chunks₀⟩).store dl f =
      { status := .complete, body := data,
        fetched := (uploadRows env f 0 data).map (fun c => c.id) } := by
  have hok := uploadOk_of_putOk hput 0 data
  constructor
  · rw [handleUpload_store]
    have h := range_join (f := f) hput 0 data store₀
    have h2 : numChunks data.length = (data.length + ChunkSize - 1) / ChunkSize := rfl
    rw [← h2]
    simpa using h
  · obtain ⟨d, ds, rfl⟩ : ∃ d ds, data = d :: ds := by
      cases data with
      | nil => exact absurd rfl hne
      | cons d ds => exact ⟨d, ds, rfl⟩
    have hp0 : ¬env.putOk 0 = false := by rw [hput 0]; simp
    have hpair := @uploadRows_pairwise env f 0 (d :: ds)
    have hfid := @uploadRows_fileId env f 0 (d :: ds)
    simp only [handleUpload_ok hok, hfin, if_true]
    rw [uploadRecs_eq_rows hrec]
    obtain ⟨row, hrowEq⟩ := @lookupCompleted_finalize files₀
      (chunks₀ ++ uploadRows env f 0 (d :: ds)) f
      ((uploadRows env f 0 (d :: ds)).length) hrow
    rw [downloadFile, hrowEq]
    have hl : listChunks
        (finalizeFile { files := files₀, chunks := chunks₀ ++ uploadRows env f 0 (d :: ds) }
          f ((uploadRows env f 0 (d :: ds)).length)) f =
        uploadRows env f 0 (d :: ds) := by
      rw [listChunks_finalize]
      exact listChunks_split hold hfid hpair
    rw [hl]
    have hemp : (uploadRows env f 0 (d :: ds)).isEmpty = false := by
      rw [uploadRows_cons hp0]
      rfl
    rw [if_neg (by simp [hemp])]
    have hs := stream_rows (f := f) hput hfetch 0 (d :: ds) store₀ [] []
    rw [hs]
    simp

/-- C1 witness: uploading three bytes and downloading them back. -/
theorem upload_download_roundtrip_witness :
    ((List.range ((([1, 2, 3] : List Nat).length + ChunkSize - 1) / ChunkSize)).map
        (fun i =>
          (Store.get (handleUpload allOkEnv testFid [1, 2, 3] [] ⟨[testRow], []⟩).store
            (chunkKey testFid i)).getD [])).flatten = [1, 2, 3] ∧
    downloadFile (handleUpload allOkEnv testFid [1, 2, 3] [] ⟨[testRow], []⟩).ledger
        (handleUpload allOkEnv testFid [1, 2, 3] [] ⟨[testRow], []⟩).store
        allFetchEnv testFid =
      { status := .complete, body := [1, 2, 3],
        fetched := (uploadRows allOkEnv testFid 0 [1, 2, 3]).map (fun c => c.id) } :=
  upload_download_roundtrip allOkEnv allFetchEnv testFid [1, 2, 3] [] [testRow] []
    (fun _ => rfl) (fun _ => rfl) rfl (fun _ => rfl)
    ⟨testRow, List.mem_cons_self _ _, rfl⟩
    (fun c hc => absurd hc (List.not_mem_nil c))
    (by simp)


theorem sha256hex_nil :
    sha256hex [] =
      "e3b0c44298fc1c149afbf4c8996fb92427ae41e4649b934ca495991b7852b855" := by
  decide

theorem sha256hex_abc :
    sha256hex [97, 98, 99] =
      "ba7816bf8f01cfea414140de5dae2223b00361a396177a9cb410ff61f20015ad" := by
  decide

end AtlasFS

